import Mathlib

/-!
Verification development for the `mpot` repository (batched motion-trajectory
optimization via entropic optimal transport).  The repository's visible source
(`examples/mpot_occupancy.py`) is orchestration glue; the core components it
instantiates (Sinkhorn solver, polytope generation, structured sampler,
planner loop) are modelled here from the specification, faithful to its words,
over exact rationals.
-/

namespace MPot

/-! ### Entropic OT solver (Sinkhorn)

Modelled from the spec: alternating log-domain scaling of dual potentials is
equivalent to alternating multiplicative scaling of `u, v` against the Gibbs
kernel `K = exp(-C/epsilon)` (elementwise positive).  Since `exp` is
transcendental, the model takes the positive kernel `K` itself as input; all
theorems only use its positivity, which holds for every cost matrix `C` and
every `epsilon > 0`.  The solver checks the marginal violation (L1 distance
between achieved row sums and the source marginal; column sums are exact after
each full pass) after every `inner_iterations` passes, and stops when the
violation is below `threshold` or `max_iterations` is reached. -/

/-- Configuration of the Sinkhorn solver, mirroring
`Sinkhorn(threshold=..., inner_iterations=..., max_iterations=...)` in the
source. -/
structure SinkhornCfg where
  threshold : ℚ
  inner_iterations : ℕ
  max_iterations : ℕ

variable {m n : ℕ}

/-- Scaling state: dual scalings `u` (source side) and `v` (target side). -/
def ScalState (m n : ℕ) : Type := (Fin m → ℚ) × (Fin n → ℚ)

/-- Update of the source scaling so that row sums match `a` exactly. -/
def uUpd (K : Fin m → Fin n → ℚ) (a : Fin m → ℚ) (v : Fin n → ℚ) : Fin m → ℚ :=
  fun i => a i / ∑ j, K i j * v j

/-- Update of the target scaling so that column sums match `b` exactly. -/
def vUpd (K : Fin m → Fin n → ℚ) (b : Fin n → ℚ) (u : Fin m → ℚ) : Fin n → ℚ :=
  fun j => b j / ∑ i, K i j * u i

/-- One full Sinkhorn scaling pass: a `u`-update followed by a `v`-update. -/
def spass (K : Fin m → Fin n → ℚ) (a : Fin m → ℚ) (b : Fin n → ℚ)
    (st : ScalState m n) : ScalState m n :=
  let u := uUpd K a st.2
  (u, vUpd K b u)

/-- The coupling (transport plan) represented by a scaling state:
`P i j = u i * K i j * v j`. -/
def plan (K : Fin m → Fin n → ℚ) (st : ScalState m n) : Fin m → Fin n → ℚ :=
  fun i j => st.1 i * K i j * st.2 j

/-- Row sums of a coupling. -/
def rowSum (P : Fin m → Fin n → ℚ) (i : Fin m) : ℚ := ∑ j, P i j

/-- Column sums of a coupling. -/
def colSum (P : Fin m → Fin n → ℚ) (j : Fin n) : ℚ := ∑ i, P i j

/-- Marginal violation: L1 distance between achieved row sums and the source
marginal `a` (the column marginals are matched exactly by the last
`v`-update of a pass). -/
def viol (K : Fin m → Fin n → ℚ) (a : Fin m → ℚ) (st : ScalState m n) : ℚ :=
  ∑ i, |rowSum (plan K st) i - a i|

/-- The convergence-checked scaling loop.  Each round performs
`cfg.inner_iterations` passes, adds them to the running count, then stops if
the marginal violation is below `cfg.threshold` or the count has reached
`cfg.max_iterations`; otherwise it recurses on the remaining fuel. -/
def sgo (cfg : SinkhornCfg) (K : Fin m → Fin n → ℚ) (a : Fin m → ℚ) (b : Fin n → ℚ) :
    ℕ → ScalState m n → ℕ → ScalState m n × ℕ
  | 0, st, done => (st, done)
  | fuel + 1, st, done =>
    let st' := (spass K a b)^[cfg.inner_iterations] st
    let done' := done + cfg.inner_iterations
    if viol K a st' < cfg.threshold ∨ cfg.max_iterations ≤ done' then (st', done')
    else sgo cfg K a b fuel st' done'

/-- Run the Sinkhorn loop from the all-ones scalings. -/
def sinkhornRun (cfg : SinkhornCfg) (K : Fin m → Fin n → ℚ)
    (a : Fin m → ℚ) (b : Fin n → ℚ) : ScalState m n × ℕ :=
  sgo cfg K a b cfg.max_iterations (fun _ => 1, fun _ => 1) 0

/-- Result of a Sinkhorn solve: the coupling, the iteration count actually
used, and whether convergence (violation below `threshold`) was reported. -/
structure SinkhornResult (m n : ℕ) where
  coupling : Fin m → Fin n → ℚ
  iters : ℕ
  converged : Bool

/-- The Sinkhorn solver, modelled from the spec: returns the coupling, the
actual iteration count, and the reported convergence flag.  Non-convergence
within `max_iterations` is not an error: the best-effort coupling is returned
with the count. -/
def sinkhorn (cfg : SinkhornCfg) (K : Fin m → Fin n → ℚ)
    (a : Fin m → ℚ) (b : Fin n → ℚ) : SinkhornResult m n :=
  let r := sinkhornRun cfg K a b
  ⟨plan K r.1, r.2, decide (viol K a r.1 < cfg.threshold)⟩

/-- Invariant of the scaling loop: both scalings are positive and the column
sums of the represented coupling match the target marginal `b` exactly
(established by the `v`-update that ends every pass). -/
def ScalInv (K : Fin m → Fin n → ℚ) (b : Fin n → ℚ) (st : ScalState m n) : Prop :=
  (∀ i, 0 < st.1 i) ∧ (∀ j, 0 < st.2 j) ∧ ∀ j, colSum (plan K st) j = b j

/-! ### Error taxonomy

Modelled from the spec (section 7): configuration errors are raised at
construction, numerical errors during iteration; Sinkhorn non-convergence is
not an error. -/

/-- Errors of the planner, per the spec's taxonomy. -/
inductive MPOTError where
  | configurationError (msg : String)
  | numericalError (msg : String)
deriving DecidableEq

/-! ### Polytope Generator

Modelled from the spec: the generator itself is not under `src/`; the spec
documents `generate(kind, dim)` as a pure function returning a fixed vertex
set, failing with a configuration error for unsupported `kind` or `dim < 1`,
with vertex counts `cube`: `2*dim`, `orthoplex`: `2*dim` (both described as
the axis-aligned ± unit vectors), `simplex`: `dim+1` symmetric vertices (the
spec does not pin the simplex coordinates; we use the standard unit vectors
plus the symmetric negative vertex, unnormalized over `ℚ`). -/

/-- The `i`-th coordinate unit vector of dimension `d`. -/
def unitVec (d i : ℕ) : List ℚ :=
  (List.range d).map (fun j => if j = i then 1 else 0)

/-- Elementwise negation of a vector. -/
def negVec (v : List ℚ) : List ℚ := v.map (fun x => -x)

/-- Cube vertex directions: the axis-aligned `±` unit vectors (`2*d` of them,
as documented by the spec). -/
def cubeVertices (d : ℕ) : List (List ℚ) :=
  (List.range d).flatMap (fun i => [unitVec d i, negVec (unitVec d i)])

/-- Orthoplex vertex directions: the axis-aligned `±` unit vectors
(`2*d` of them). -/
def orthoplexVertices (d : ℕ) : List (List ℚ) :=
  (List.range d).flatMap (fun i => [unitVec d i, negVec (unitVec d i)])

/-- Simplex vertex directions: `d+1` symmetric vertices.  A regular simplex
with all vertices of equal norm has irrational coordinates for `d ≥ 2` (an
equilateral triangle has no rational embedding), so it cannot be represented
exactly over `ℚ`; this model uses the standard affinely independent sum-zero
construction (the `d` unit vectors plus the all-minus-one vertex), which
keeps the defining symmetry property that the vertex directions sum to zero,
as they do for the spec's cube and orthoplex.  No theorem in this development
depends on the simplex vertex norms or coordinates beyond the count. -/
def simplexVertices (d : ℕ) : List (List ℚ) :=
  ((List.range d).map (fun i => unitVec d i)) ++ [List.replicate d (-1 : ℚ)]

/-- The Polytope Generator: `generate(kind, dim)`, a pure function failing
with a configuration error for unsupported `kind` or `dim < 1`. -/
def generate (kind : String) (dim : ℕ) : Except MPOTError (List (List ℚ)) :=
  if dim < 1 then .error (.configurationError "dim must be at least 1")
  else if kind = "cube" then .ok (cubeVertices dim)
  else if kind = "simplex" then .ok (simplexVertices dim)
  else if kind = "orthoplex" then .ok (orthoplexVertices dim)
  else .error (.configurationError "unsupported polytope kind")

/-! ### Structured Sampler / Local Update

Modelled from the spec (section 4.3): for each waypoint of each particle,
candidates are the current state ("stay") plus probes along each polytope
vertex direction at `num_probe` radii between `step_radius` and
`probe_radius`; a cost matrix over the batch of states × candidates is built
from the Cost Evaluator, one entropic OT problem is solved per waypoint with
uniform marginals (each state distributes unit mass over the candidates, mass
conserved), and the next state is the candidate-weighted expectation under
the resulting coupling.  `gibbs` is the positive decreasing `ℚ`-surrogate for
the Gibbs kernel entry `exp(-c/epsilon)`. -/

/-- A population of trajectory particles: particles × waypoints × state
coordinates. -/
abbrev Pop := List (List (List ℚ))

/-- The probe radii: `num_probe` radii from just beyond `step_radius` out to
`probe_radius`. -/
def probeRadii (step_radius probe_radius : ℚ) (num_probe : ℕ) : List ℚ :=
  (List.range num_probe).map
    (fun k => step_radius + (probe_radius - step_radius) * (k + 1) / num_probe)

/-- `x + r • v` coordinatewise. -/
def addScaled (x v : List ℚ) (r : ℚ) : List ℚ :=
  List.zipWith (fun xi vi => xi + r * vi) x v

/-- Probe candidates of a state: the "stay" option first, then one probe per
vertex direction and radius. -/
def probeCands (V : List (List ℚ)) (radii : List ℚ) (x : List ℚ) : List (List ℚ) :=
  x :: V.flatMap (fun v => radii.map (fun r => addScaled x v r))

/-- Number of candidates per state: 1 (stay) plus one per vertex × radius. -/
def numCands (V : List (List ℚ)) (radii : List ℚ) : ℕ :=
  1 + V.length * radii.length

/-- Cost of a state under the (possibly failing) Cost Evaluator, defaulting
to 0; failures are detected separately and abort the whole batch. -/
def costValD (cv : List ℚ → Option ℚ) (x : List ℚ) : ℚ := (cv x).getD 0

/-- Positive decreasing `ℚ`-surrogate for the Gibbs kernel entry
`exp(-|c|/eps)`: positive for every cost `c` whenever `eps > 0`, which is the
only property the development uses. -/
def gibbs (eps c : ℚ) : ℚ := 1 / (1 + |c| / eps)

/-- The `j`-th candidate of the `i`-th state of a waypoint column. -/
def colCandM (V : List (List ℚ)) (radii : List ℚ) (col : List (List ℚ))
    (i j : ℕ) : List ℚ :=
  (probeCands V radii (col.getD i [])).getD j []

/-- The Gibbs kernel of the local OT problem of one waypoint column. -/
def colKernel (eps : ℚ) (cv : List ℚ → Option ℚ) (V : List (List ℚ))
    (radii : List ℚ) (col : List (List ℚ)) :
    Fin col.length → Fin (numCands V radii) → ℚ :=
  fun i j => gibbs eps (costValD cv (colCandM V radii col i.val j.val))

/-- Uniform source marginal: each state distributes unit mass. -/
def colMarginalA (col : List (List ℚ)) : Fin col.length → ℚ := fun _ => 1

/-- Uniform target marginal over candidates, conserving the total mass
`col.length`. -/
def colMarginalB (V : List (List ℚ)) (radii : List ℚ) (col : List (List ℚ)) :
    Fin (numCands V radii) → ℚ :=
  fun _ => (col.length : ℚ) / (numCands V radii : ℚ)

/-- The Sinkhorn solve of one waypoint column. -/
def colSolve (otCfg : SinkhornCfg) (eps : ℚ) (cv : List ℚ → Option ℚ)
    (V : List (List ℚ)) (radii : List ℚ) (col : List (List ℚ)) :
    ScalState col.length (numCands V radii) × ℕ :=
  sinkhornRun otCfg (colKernel eps cv V radii col) (colMarginalA col)
    (colMarginalB V radii col)

/-- The coupling of one waypoint column as a total `ℕ`-indexed matrix. -/
def colCoupling (otCfg : SinkhornCfg) (eps : ℚ) (cv : List ℚ → Option ℚ)
    (V : List (List ℚ)) (radii : List ℚ) (col : List (List ℚ)) : ℕ → ℕ → ℚ :=
  fun i j =>
    if h : i < col.length ∧ j < numCands V radii then
      plan (colKernel eps cv V radii col) (colSolve otCfg eps cv V radii col).1
        ⟨i, h.1⟩ ⟨j, h.2⟩
    else 0

/-- Iteration count of the Sinkhorn solve of one waypoint column. -/
def colIters (otCfg : SinkhornCfg) (eps : ℚ) (cv : List ℚ → Option ℚ)
    (V : List (List ℚ)) (radii : List ℚ) (col : List (List ℚ)) : ℕ :=
  (colSolve otCfg eps cv V radii col).2

/-- The updated `i`-th state of a waypoint column: the candidate-weighted
expectation under the coupling, normalized by the achieved row mass. -/
def newStateFor (otCfg : SinkhornCfg) (eps : ℚ) (cv : List ℚ → Option ℚ)
    (V : List (List ℚ)) (radii : List ℚ) (col : List (List ℚ)) (i : ℕ) : List ℚ :=
  let P := colCoupling otCfg eps cv V radii col
  let S := ∑ j ∈ Finset.range (numCands V radii), P i j
  (List.range (col.getD i []).length).map
    (fun c => ∑ j ∈ Finset.range (numCands V radii),
      (P i j / S) * ((colCandM V radii col i j).getD c 0))

/-- The updated states of one waypoint column. -/
def newCol (otCfg : SinkhornCfg) (eps : ℚ) (cv : List ℚ → Option ℚ)
    (V : List (List ℚ)) (radii : List ℚ) (col : List (List ℚ)) : List (List ℚ) :=
  (List.range col.length).map (newStateFor otCfg eps cv V radii col)

/-- The expected candidate cost of the `i`-th state of a column under the
computed coupling (normalized by the achieved row mass). -/
def expectedCandCost (otCfg : SinkhornCfg) (eps : ℚ) (cv : List ℚ → Option ℚ)
    (V : List (List ℚ)) (radii : List ℚ) (col : List (List ℚ)) (i : ℕ) : ℚ :=
  let P := colCoupling otCfg eps cv V radii col
  let S := ∑ j ∈ Finset.range (numCands V radii), P i j
  ∑ j ∈ Finset.range (numCands V radii),
    (P i j / S) * costValD cv (colCandM V radii col i j)

/-- The minimum candidate cost of a candidate list (0 for the empty list). -/
def minOfCosts (cv : List ℚ → Option ℚ) (cands : List (List ℚ)) : ℚ :=
  match cands.map (costValD cv) with
  | [] => 0
  | h :: t => t.foldl min h

/-- The states of all particles at waypoint `w`. -/
def column (pop : Pop) (w : ℕ) : List (List ℚ) :=
  pop.map (fun traj => traj.getD w [])

/-- One structured-sampling update of the whole population: every waypoint of
every particle is replaced by the coupling-weighted expectation of its
candidates, coupled across the particle batch at that waypoint. -/
def stepPop (otCfg : SinkhornCfg) (eps : ℚ) (cv : List ℚ → Option ℚ)
    (V : List (List ℚ)) (radii : List ℚ) (pop : Pop) : Pop :=
  (List.range pop.length).map (fun i =>
    (List.range ((pop.getD i []).length)).map (fun w =>
      (newCol otCfg eps cv V radii (column pop w)).getD i []))

/-- The structured-sampler step: a non-finite cost anywhere in the batch
(a `none` from the Cost Evaluator) fails the whole update with a numerical
error, per the spec's propagation policy; otherwise the updated population is
returned. -/
def samplerStep (otCfg : SinkhornCfg) (eps : ℚ) (V : List (List ℚ))
    (radii : List ℚ) (cv : List ℚ → Option ℚ) (pop : Pop) :
    Except MPOTError Pop :=
  if pop.any (fun traj => traj.any (fun x =>
      (probeCands V radii x).any (fun c => (cv c).isNone)))
  then .error (.numericalError "non-finite cost in batch")
  else .ok (stepPop otCfg eps cv V radii pop)

/-! ### Planner (outer loop)

Modelled from the spec (sections 4.4, 6, 7): construction validates the
configuration eagerly (configuration errors are raised at construction,
never during iteration); `optimize()` initializes the particle populations
around the goals from the supplied seed, then iterates structured-sampling
updates, recording diagnostics, and stops at the first iteration
`≥ min_iterations` whose relative cost change is below `threshold`, or
unconditionally at `max_iterations`. -/

/-- Planner configuration, mirroring `mpot_params` and `ss_params` of the
source. -/
structure MPOTParams where
  polytope : String
  step_radius : ℚ
  probe_radius : ℚ
  num_probe : ℕ
  dim : ℕ
  traj_len : ℕ
  num_particles_per_goal : ℕ
  dt : ℚ
  start_state : List ℚ
  multi_goal_states : List (List ℚ)
  epsilon : ℚ
  ent_epsilon : ℚ
  min_iterations : ℕ
  max_iterations : ℕ
  threshold : ℚ
  store_history : Bool
  sigma_start_init : ℚ
  sigma_goal_init : ℚ
  sigma_gp_init : ℚ
  seed : ℕ
deriving DecidableEq

/-- Eager configuration validation, per the spec's error taxonomy: supported
polytope kind, `probe_radius ≥ step_radius`, positive `dim`, `traj_len`,
`num_particles_per_goal`, and matching tensor shapes (state vectors of length
`2*dim`). -/
def validParams (p : MPOTParams) : Bool :=
  (p.polytope == "cube" || p.polytope == "simplex" || p.polytope == "orthoplex") &&
  decide (p.step_radius ≤ p.probe_radius) &&
  decide (1 ≤ p.dim) && decide (1 ≤ p.traj_len) &&
  decide (1 ≤ p.num_particles_per_goal) &&
  (p.start_state.length == 2 * p.dim) &&
  p.multi_goal_states.all (fun g => g.length == 2 * p.dim)

/-- The constructed planner: validated configuration plus the resolved
polytope vertex set. -/
structure MPOT where
  params : MPOTParams
  vertices : List (List ℚ)
deriving DecidableEq

/-- Planner construction: validates eagerly and resolves the polytope
vertices; every construction failure is a configuration error. -/
def mkMPOT (p : MPOTParams) : Except MPOTError MPOT :=
  if validParams p then
    .ok ⟨p, (generate p.polytope p.dim).toOption.getD []⟩
  else .error (.configurationError "invalid planner configuration")

/-- Modelled from the spec: `fix_random_seed(seed)` resets the (global)
random state from the seed, overwriting whatever ambient state existed, so
that runs are reproducible. -/
def fix_random_seed (ambient seed : ℕ) : ℕ := seed

/-- A linear congruential step, the pseudo-random primitive of the model. -/
def lcg (x : ℕ) : ℕ := (1103515245 * x + 12345) % 2147483648

/-- Deterministic pseudo-random mix of the seed with goal/particle/waypoint/
coordinate indices. -/
def mix (s g k t c : ℕ) : ℕ := lcg (lcg (lcg (lcg (lcg s + g) + k) + t) + c)

/-- Pseudo-random noise value in `[-1, 1]` derived from the seeded state. -/
def noiseAt (s g k t c : ℕ) : ℚ := ((mix s g k t c % 2001 : ℕ) - 1000 : ℚ) / 1000

/-- Coordinate `c` of the straight-line interpolation between start and goal
at waypoint `t` of `T`. -/
def lerpCoord (start goal : List ℚ) (T t c : ℕ) : ℚ :=
  start.getD c 0 + (goal.getD c 0 - start.getD c 0) * t / ((T : ℚ) - 1)

/-- The spec's noise scale: `sigma_start_init` at the first waypoint,
`sigma_goal_init` at the last, `sigma_gp_init` in between. -/
def sigmaAt (p : MPOTParams) (t : ℕ) : ℚ :=
  if t = 0 then p.sigma_start_init
  else if t = p.traj_len - 1 then p.sigma_goal_init
  else p.sigma_gp_init

/-- Modelled from the spec: particle initialization.  For each goal,
`num_particles_per_goal` trajectories are sampled as perturbations of the
straight-line interpolation between `start_state` and the goal, with Gaussian
noise modelled by the seeded pseudo-random stream scaled by the sigma
parameters. -/
def initPopulation (rngState : ℕ) (p : MPOTParams) : Pop :=
  (List.range p.multi_goal_states.length).flatMap (fun g =>
    (List.range p.num_particles_per_goal).map (fun k =>
      (List.range p.traj_len).map (fun t =>
        (List.range (2 * p.dim)).map (fun c =>
          lerpCoord p.start_state (p.multi_goal_states.getD g []) p.traj_len t c
            + sigmaAt p t * noiseAt rngState g k t c))))

/-- Composite cost of one trajectory: sum of the Cost Evaluator over its
waypoints; `none` (non-finite) anywhere poisons the trajectory cost. -/
def trajCost (cv : List ℚ → Option ℚ) (traj : List (List ℚ)) : Option ℚ :=
  (traj.mapM cv).map (fun l => l.sum)

/-- Total composite cost of a population. -/
def popCost (cv : List ℚ → Option ℚ) (pop : Pop) : Option ℚ :=
  (pop.mapM (trajCost cv)).map (fun l => l.sum)

/-- Minimum trajectory cost within a population (0 for the empty
population). -/
def minPopCost (cv : List ℚ → Option ℚ) (pop : Pop) : ℚ :=
  match pop.map (fun traj => (trajCost cv traj).getD 0) with
  | [] => 0
  | h :: t => t.foldl min h

/-- Relative cost change between consecutive outer iterations. -/
def relChange (prev c : ℚ) : ℚ := |c - prev| / |prev|

/-- Per-iteration diagnostics accumulated by the planner: recorded costs,
inner Sinkhorn iteration counts, trajectory history snapshots. -/
structure OptimState where
  costs : List ℚ
  linear_convergence : List ℕ
  X_history : List Pop
deriving DecidableEq

/-- The planner's outer loop.  Each iteration applies the sampler step
(propagating its errors), evaluates the total cost (a non-finite cost aborts
with a numerical error), appends diagnostics (history only when
`storeH`), and stops at the first iteration `≥ minI` whose relative cost
change is below `thr`; the fuel (set to `max_iterations` by `optimize`)
bounds the iteration count. -/
def optLoop (step : Pop → Except MPOTError Pop) (costF : Pop → Option ℚ)
    (linF : Pop → ℕ) (minI : ℕ) (thr : ℚ) (storeH : Bool) :
    ℕ → ℕ → Pop → ℚ → OptimState → Except MPOTError (Pop × OptimState × ℕ)
  | 0, done, pop, _, st => .ok (pop, st, done)
  | fuel + 1, done, pop, prevCost, st =>
    match step pop with
    | .error e => .error e
    | .ok pop' =>
      match costF pop' with
      | none => .error (.numericalError "non-finite cost")
      | some c =>
        let st' : OptimState :=
          ⟨st.costs ++ [c], st.linear_convergence ++ [linF pop'],
            if storeH then st.X_history ++ [pop'] else st.X_history⟩
        if minI ≤ done + 1 ∧ relChange prevCost c < thr then .ok (pop', st', done + 1)
        else optLoop step costF linF minI thr storeH fuel (done + 1) pop' c st'

/-- `optimize()`: seed the random state, initialize the population, then run
the outer loop with the structured-sampler step; returns the final
trajectories, the optimization state, and the iteration count actually
executed. -/
def MPOT.optimize (pl : MPOT) (otCfg : SinkhornCfg) (cv : List ℚ → Option ℚ)
    (ambient : ℕ) : Except MPOTError (Pop × OptimState × ℕ) :=
  let rngState := fix_random_seed ambient pl.params.seed
  let radii := probeRadii pl.params.step_radius pl.params.probe_radius pl.params.num_probe
  let pop0 := initPopulation rngState pl.params
  match popCost cv pop0 with
  | none => .error (.numericalError "non-finite initial cost")
  | some c0 =>
    optLoop (samplerStep otCfg pl.params.epsilon pl.vertices radii cv) (popCost cv)
      (fun pop => colIters otCfg pl.params.epsilon cv pl.vertices radii (column pop 0))
      pl.params.min_iterations pl.params.threshold pl.params.store_history
      pl.params.max_iterations 0 pop0 c0 ⟨[], [], []⟩

/-- The iteration count of an `optimize()` result (0 on error). -/
def itersOf (r : Except MPOTError (Pop × OptimState × ℕ)) : ℕ :=
  match r with
  | .ok x => x.2.2
  | .error _ => 0

/-- The optimization state of an `optimize()` result (empty on error). -/
def stateOf (r : Except MPOTError (Pop × OptimState × ℕ)) : OptimState :=
  match r with
  | .ok x => x.2.1
  | .error _ => ⟨[], [], []⟩

/-- Whether an `optimize()` result is a success. -/
def isOkE (r : Except MPOTError (Pop × OptimState × ℕ)) : Bool :=
  match r with
  | .ok _ => true
  | .error _ => false

/-- Whether a result is a configuration error. -/
def isConfigError {α : Type} (r : Except MPOTError α) : Bool :=
  match r with
  | .error (.configurationError _) => true
  | _ => false

/-- The minimum-trajectory-cost trace over the recorded history snapshots. -/
def minHistory (cv : List ℚ → Option ℚ)
    (r : Except MPOTError (Pop × OptimState × ℕ)) : List ℚ :=
  (stateOf r).X_history.map (minPopCost cv)

/-- Well-shapedness of a population: `np` particles, `T` waypoints each,
`D` coordinates per waypoint state. -/
def shapedPop (np T D : ℕ) (pop : Pop) : Prop :=
  pop.length = np ∧ ∀ t ∈ pop, t.length = T ∧ ∀ x ∈ t, x.length = D

end MPot

namespace MPot

section SinkhornTheory

variable {m n : ℕ}

theorem uUpd_pos {K : Fin m → Fin n → ℚ} {a : Fin m → ℚ} (hn : 0 < n)
    (hK : ∀ i j, 0 < K i j) (ha : ∀ i, 0 < a i)
    {v : Fin n → ℚ} (hv : ∀ j, 0 < v j) : ∀ i, 0 < uUpd K a v i := by
  intro i
  have : Nonempty (Fin n) := ⟨⟨0, hn⟩⟩
  exact div_pos (ha i)
    (Finset.sum_pos (fun j _ => mul_pos (hK i j) (hv j)) Finset.univ_nonempty)

theorem vUpd_pos {K : Fin m → Fin n → ℚ} {b : Fin n → ℚ} (hm : 0 < m)
    (hK : ∀ i j, 0 < K i j) (hb : ∀ j, 0 < b j)
    {u : Fin m → ℚ} (hu : ∀ i, 0 < u i) : ∀ j, 0 < vUpd K b u j := by
  intro j
  have : Nonempty (Fin m) := ⟨⟨0, hm⟩⟩
  exact div_pos (hb j)
    (Finset.sum_pos (fun i _ => mul_pos (hK i j) (hu i)) Finset.univ_nonempty)

theorem spass_scalInv {K : Fin m → Fin n → ℚ} {a : Fin m → ℚ} {b : Fin n → ℚ}
    (hm : 0 < m) (hn : 0 < n) (hK : ∀ i j, 0 < K i j)
    (ha : ∀ i, 0 < a i) (hb : ∀ j, 0 < b j) {st : ScalState m n}
    (hv : ∀ j, 0 < st.2 j) : ScalInv K b (spass K a b st) := by
  have : Nonempty (Fin m) := ⟨⟨0, hm⟩⟩
  have hu : ∀ i, 0 < uUpd K a st.2 i := uUpd_pos hn hK ha hv
  have hv2 : ∀ j, 0 < vUpd K b (uUpd K a st.2) j := vUpd_pos hm hK hb hu
  refine ⟨hu, hv2, fun j => ?_⟩
  have hS : (0 : ℚ) < ∑ i, K i j * uUpd K a st.2 i :=
    Finset.sum_pos (fun i _ => mul_pos (hK i j) (hu i)) Finset.univ_nonempty
  have hcol : colSum (plan K (spass K a b st)) j =
      (b j / (∑ i, K i j * uUpd K a st.2 i)) * (∑ i, K i j * uUpd K a st.2 i) := by
    simp only [colSum, plan, spass, vUpd, Finset.sum_mul, Finset.mul_sum]
    refine Finset.sum_congr rfl fun i _ => ?_
    ring
  rw [hcol, div_mul_cancel₀ _ (ne_of_gt hS)]

theorem spass_scalInv_of_scalInv {K : Fin m → Fin n → ℚ} {a : Fin m → ℚ} {b : Fin n → ℚ}
    (hm : 0 < m) (hn : 0 < n) (hK : ∀ i j, 0 < K i j)
    (ha : ∀ i, 0 < a i) (hb : ∀ j, 0 < b j) {st : ScalState m n}
    (h : ScalInv K b st) : ScalInv K b (spass K a b st) :=
  spass_scalInv hm hn hK ha hb h.2.1

theorem iterate_scalInv {K : Fin m → Fin n → ℚ} {a : Fin m → ℚ} {b : Fin n → ℚ}
    (hm : 0 < m) (hn : 0 < n) (hK : ∀ i j, 0 < K i j)
    (ha : ∀ i, 0 < a i) (hb : ∀ j, 0 < b j) :
    ∀ (k : ℕ) {st : ScalState m n}, ScalInv K b st →
      ScalInv K b ((spass K a b)^[k] st) := by
  intro k
  induction k with
  | zero => intro st h; simpa using h
  | succ k ih =>
    intro st h
    rw [Function.iterate_succ_apply]
    exact ih (spass_scalInv_of_scalInv hm hn hK ha hb h)

theorem sgo_scalInv (cfg : SinkhornCfg) {K : Fin m → Fin n → ℚ} {a : Fin m → ℚ}
    {b : Fin n → ℚ} (hm : 0 < m) (hn : 0 < n) (hK : ∀ i j, 0 < K i j)
    (ha : ∀ i, 0 < a i) (hb : ∀ j, 0 < b j) :
    ∀ (f : ℕ) (st : ScalState m n) (done : ℕ), ScalInv K b st →
      ScalInv K b (sgo cfg K a b f st done).1 := by
  intro f
  induction f with
  | zero => intro st done h; exact h
  | succ f ih =>
    intro st done h
    have h' : ScalInv K b ((spass K a b)^[cfg.inner_iterations] st) :=
      iterate_scalInv hm hn hK ha hb _ h
    simp only [sgo]
    split
    · exact h'
    · exact ih _ _ h'

theorem sinkhornRun_scalInv (cfg : SinkhornCfg) {K : Fin m → Fin n → ℚ}
    {a : Fin m → ℚ} {b : Fin n → ℚ} (hm : 0 < m) (hn : 0 < n)
    (hK : ∀ i j, 0 < K i j) (ha : ∀ i, 0 < a i) (hb : ∀ j, 0 < b j)
    (hin : 1 ≤ cfg.inner_iterations) (hmax : 1 ≤ cfg.max_iterations) :
    ScalInv K b (sinkhornRun cfg K a b).1 := by
  obtain ⟨f, hf⟩ := Nat.exists_eq_succ_of_ne_zero (Nat.one_le_iff_ne_zero.mp hmax)
  obtain ⟨k, hk⟩ := Nat.exists_eq_succ_of_ne_zero (Nat.one_le_iff_ne_zero.mp hin)
  have hone : ∀ j, (0 : ℚ) < (fun _ : Fin n => (1 : ℚ)) j := fun _ => one_pos
  have hfirst : ScalInv K b
      ((spass K a b)^[cfg.inner_iterations] ((fun _ => 1, fun _ => 1) : ScalState m n)) := by
    rw [hk, Function.iterate_succ_apply]
    exact iterate_scalInv hm hn hK ha hb k (spass_scalInv hm hn hK ha hb hone)
  unfold sinkhornRun
  rw [hf]
  simp only [sgo]
  split
  · exact hfirst
  · exact sgo_scalInv cfg hm hn hK ha hb _ _ _ hfirst

theorem abs_rowSum_le_viol (K : Fin m → Fin n → ℚ) (a : Fin m → ℚ)
    (st : ScalState m n) (i : Fin m) :
    |rowSum (plan K st) i - a i| ≤ viol K a st :=
  Finset.single_le_sum (f := fun i => |rowSum (plan K st) i - a i|)
    (fun _ _ => abs_nonneg _) (Finset.mem_univ i)

theorem sum_rowSum_eq_sum_colSum (P : Fin m → Fin n → ℚ) :
    ∑ i, rowSum P i = ∑ j, colSum P j := by
  simp only [rowSum, colSum]
  exact Finset.sum_comm

/-- C1: for every valid input (positive Gibbs kernel `K`, positive marginals
`a`, `b` of equal total mass), when the Sinkhorn solver reports convergence the
returned coupling is non-negative everywhere, its row sums match `a` within
`threshold`, its column sums equal `b` exactly (hence within any tolerance),
and its total mass equals the common mass of `a` and `b`. -/
theorem sinkhorn_coupling_marginals (cfg : SinkhornCfg) (K : Fin m → Fin n → ℚ)
    (a : Fin m → ℚ) (b : Fin n → ℚ) (hm : 0 < m) (hn : 0 < n)
    (hK : ∀ i j, 0 < K i j) (ha : ∀ i, 0 < a i) (hb : ∀ j, 0 < b j)
    (hmass : ∑ i, a i = ∑ j, b j)
    (hin : 1 ≤ cfg.inner_iterations) (hmax : 1 ≤ cfg.max_iterations)
    (hconv : (sinkhorn cfg K a b).converged = true) :
    (∀ i j, 0 ≤ (sinkhorn cfg K a b).coupling i j) ∧
    (∀ i, |rowSum (sinkhorn cfg K a b).coupling i - a i| < cfg.threshold) ∧
    (∀ j, colSum (sinkhorn cfg K a b).coupling j = b j) ∧
    ∑ i, rowSum (sinkhorn cfg K a b).coupling i = ∑ i, a i := by
  have hinv : ScalInv K b (sinkhornRun cfg K a b).1 :=
    sinkhornRun_scalInv cfg hm hn hK ha hb hin hmax
  have hcoupling : (sinkhorn cfg K a b).coupling = plan K (sinkhornRun cfg K a b).1 := rfl
  have hviol : viol K a (sinkhornRun cfg K a b).1 < cfg.threshold := by
    have h : decide (viol K a (sinkhornRun cfg K a b).1 < cfg.threshold) = true := hconv
    exact of_decide_eq_true h
  refine ⟨?_, ?_, ?_, ?_⟩
  · intro i j
    rw [hcoupling]
    exact le_of_lt (mul_pos (mul_pos (hinv.1 i) (hK i j)) (hinv.2.1 j))
  · intro i
    rw [hcoupling]
    exact lt_of_le_of_lt (abs_rowSum_le_viol K a _ i) hviol
  · intro j
    rw [hcoupling]
    exact hinv.2.2 j
  · rw [hcoupling, sum_rowSum_eq_sum_colSum, hmass]
    exact Finset.sum_congr rfl fun j _ => hinv.2.2 j

/-- Closed witness for `sinkhorn_coupling_marginals` at a concrete converging
1×1 instance. -/
theorem sinkhorn_coupling_marginals_witness :
    (∀ i j, 0 ≤ (sinkhorn ⟨1 / 1000000, 1, 10⟩ (fun (_ : Fin 1) (_ : Fin 1) => 1)
        (fun _ => 1) (fun _ => 1)).coupling i j) ∧
    (∀ i, |rowSum (sinkhorn ⟨1 / 1000000, 1, 10⟩ (fun (_ : Fin 1) (_ : Fin 1) => 1)
        (fun _ => 1) (fun _ => 1)).coupling i - (fun _ : Fin 1 => (1 : ℚ)) i| <
        ({ threshold := 1 / 1000000, inner_iterations := 1, max_iterations := 10 : SinkhornCfg}).threshold) ∧
    (∀ j, colSum (sinkhorn ⟨1 / 1000000, 1, 10⟩ (fun (_ : Fin 1) (_ : Fin 1) => 1)
        (fun _ => 1) (fun _ => 1)).coupling j = (fun _ : Fin 1 => (1 : ℚ)) j) ∧
    ∑ i, rowSum (sinkhorn ⟨1 / 1000000, 1, 10⟩ (fun (_ : Fin 1) (_ : Fin 1) => 1)
        (fun _ => 1) (fun _ => 1)).coupling i = ∑ i : Fin 1, (fun _ : Fin 1 => (1 : ℚ)) i :=
  sinkhorn_coupling_marginals ⟨1 / 1000000, 1, 10⟩ (fun _ _ => 1) (fun _ => 1) (fun _ => 1)
    (by decide) (by decide) (by decide) (by decide) (by decide)
    (by with_unfolding_all decide) (by decide) (by decide)
    (by with_unfolding_all decide)

theorem sgo_count_spec (cfg : SinkhornCfg) (K : Fin m → Fin n → ℚ)
    (a : Fin m → ℚ) (b : Fin n → ℚ) (hin : 0 < cfg.inner_iterations)
    (hdvd : cfg.inner_iterations ∣ cfg.max_iterations) :
    ∀ (f : ℕ) (st : ScalState m n) (done : ℕ), cfg.inner_iterations ∣ done →
      done < cfg.max_iterations →
      cfg.max_iterations ≤ done + f * cfg.inner_iterations →
      cfg.inner_iterations ∣ (sgo cfg K a b f st done).2 ∧
      (sgo cfg K a b f st done).2 ≤ cfg.max_iterations ∧
      done < (sgo cfg K a b f st done).2 ∧
      ((sgo cfg K a b f st done).2 < cfg.max_iterations →
        viol K a (sgo cfg K a b f st done).1 < cfg.threshold) ∧
      (¬ viol K a (sgo cfg K a b f st done).1 < cfg.threshold →
        (sgo cfg K a b f st done).2 = cfg.max_iterations) := by
  intro f
  induction f with
  | zero =>
    intro st done _ hlt hge
    simp only [Nat.zero_mul, Nat.add_zero] at hge
    exact absurd hlt (Nat.not_lt.mpr hge)
  | succ f ih =>
    intro st done hdone hlt hge
    have hstep : done + cfg.inner_iterations ≤ cfg.max_iterations := by
      have h1 : cfg.inner_iterations ∣ cfg.max_iterations - done := Nat.dvd_sub' hdvd hdone
      have h2 : cfg.inner_iterations ≤ cfg.max_iterations - done :=
        Nat.le_of_dvd (Nat.sub_pos_of_lt hlt) h1
      omega
    simp only [sgo]
    split
    · next hcond =>
      refine ⟨Dvd.dvd.add hdone dvd_rfl, hstep, by omega, fun hlt2 => ?_, fun hnv => ?_⟩
      · rcases hcond with hv | hm2
        · exact hv
        · omega
      · rcases hcond with hv | hm2
        · exact absurd hv hnv
        · omega
    · next hcond =>
      push_neg at hcond
      obtain ⟨hnv, hlt2⟩ := hcond
      have hge2 : cfg.max_iterations ≤
          done + cfg.inner_iterations + f * cfg.inner_iterations := by
        have : done + (f + 1) * cfg.inner_iterations =
            done + cfg.inner_iterations + f * cfg.inner_iterations := by ring
        omega
      have hrec := ih ((spass K a b)^[cfg.inner_iterations] st)
        (done + cfg.inner_iterations) (Dvd.dvd.add hdone dvd_rfl) hlt2 hge2
      exact ⟨hrec.1, hrec.2.1, by omega, hrec.2.2.2.1, hrec.2.2.2.2⟩

/-- C2: the Sinkhorn loop checks the marginal violation after every
`inner_iterations` passes (so the returned count is a positive multiple of
`inner_iterations`), stops at the first check below `threshold` or when
`max_iterations` is reached, whichever comes first; non-convergence is not an
error: the solver (a total function) returns a best-effort coupling together
with a count equal to `max_iterations`, so the caller observes non-convergence
only through the count: a count below `max_iterations` implies the convergence
flag is set. -/
theorem sinkhorn_stopping (cfg : SinkhornCfg) (K : Fin m → Fin n → ℚ)
    (a : Fin m → ℚ) (b : Fin n → ℚ) (hin : 0 < cfg.inner_iterations)
    (hdvd : cfg.inner_iterations ∣ cfg.max_iterations)
    (hmax : 0 < cfg.max_iterations) :
    cfg.inner_iterations ∣ (sinkhorn cfg K a b).iters ∧
    0 < (sinkhorn cfg K a b).iters ∧
    (sinkhorn cfg K a b).iters ≤ cfg.max_iterations ∧
    ((sinkhorn cfg K a b).converged = false →
      (sinkhorn cfg K a b).iters = cfg.max_iterations) ∧
    ((sinkhorn cfg K a b).iters < cfg.max_iterations →
      (sinkhorn cfg K a b).converged = true) := by
  have hge : cfg.max_iterations ≤ 0 + cfg.max_iterations * cfg.inner_iterations := by
    have := Nat.le_mul_of_pos_right cfg.max_iterations hin
    omega
  have h := sgo_count_spec cfg K a b hin hdvd cfg.max_iterations
    (fun _ => 1, fun _ => 1) 0 (dvd_zero _) hmax hge
  have hiters : (sinkhorn cfg K a b).iters = (sinkhornRun cfg K a b).2 := rfl
  have hconv : (sinkhorn cfg K a b).converged =
      decide (viol K a (sinkhornRun cfg K a b).1 < cfg.threshold) := rfl
  have hrun : sinkhornRun cfg K a b =
      sgo cfg K a b cfg.max_iterations (fun _ => 1, fun _ => 1) 0 := rfl
  refine ⟨?_, ?_, ?_, ?_, ?_⟩
  · rw [hiters, hrun]; exact h.1
  · rw [hiters, hrun]; exact h.2.2.1
  · rw [hiters, hrun]; exact h.2.1
  · intro hfalse
    rw [hiters, hrun]
    refine h.2.2.2.2 ?_
    intro hv
    rw [hconv, hrun] at hfalse
    simp only [decide_eq_false_iff_not] at hfalse
    exact hfalse hv
  · intro hlt
    rw [hconv, hrun]
    rw [hiters, hrun] at hlt
    simp only [decide_eq_true_eq]
    exact h.2.2.2.1 hlt

/-- Closed witness for `sinkhorn_stopping` at a concrete 1×1 instance. -/
theorem sinkhorn_stopping_witness :
    ({ threshold := 1 / 1000000, inner_iterations := 1,
        max_iterations := 10 : SinkhornCfg}).inner_iterations ∣
      (sinkhorn ⟨1 / 1000000, 1, 10⟩ (fun (_ : Fin 1) (_ : Fin 1) => 1)
        (fun _ => 1) (fun _ => 1)).iters ∧
    0 < (sinkhorn ⟨1 / 1000000, 1, 10⟩ (fun (_ : Fin 1) (_ : Fin 1) => 1)
        (fun _ => 1) (fun _ => 1)).iters ∧
    (sinkhorn ⟨1 / 1000000, 1, 10⟩ (fun (_ : Fin 1) (_ : Fin 1) => 1)
        (fun _ => 1) (fun _ => 1)).iters ≤ 10 ∧
    ((sinkhorn ⟨1 / 1000000, 1, 10⟩ (fun (_ : Fin 1) (_ : Fin 1) => 1)
        (fun _ => 1) (fun _ => 1)).converged = false →
      (sinkhorn ⟨1 / 1000000, 1, 10⟩ (fun (_ : Fin 1) (_ : Fin 1) => 1)
        (fun _ => 1) (fun _ => 1)).iters = 10) ∧
    ((sinkhorn ⟨1 / 1000000, 1, 10⟩ (fun (_ : Fin 1) (_ : Fin 1) => 1)
        (fun _ => 1) (fun _ => 1)).iters < 10 →
      (sinkhorn ⟨1 / 1000000, 1, 10⟩ (fun (_ : Fin 1) (_ : Fin 1) => 1)
        (fun _ => 1) (fun _ => 1)).converged = true) :=
  sinkhorn_stopping ⟨1 / 1000000, 1, 10⟩ (fun _ _ => 1) (fun _ => 1) (fun _ => 1)
    (by decide) (by decide) (by decide)

/-- C8 counterexample: on the 1×1 instance with marginals `a = b = 2` (equal
total mass, so a valid input) and any positive kernel entry, the solver does
converge in exactly 1 iteration, but the returned coupling is the common mass
`2`, not the product `a * b = 4`: the claim `P = a * b` fails for
unnormalized marginals. -/
theorem sinkhorn_one_by_one_counterexample :
    (sinkhorn ⟨1 / 1000000, 1, 100⟩ (fun (_ : Fin 1) (_ : Fin 1) => 1)
      (fun _ => 2) (fun _ => 2)).converged = true ∧
    (sinkhorn ⟨1 / 1000000, 1, 100⟩ (fun (_ : Fin 1) (_ : Fin 1) => 1)
      (fun _ => 2) (fun _ => 2)).iters = 1 ∧
    ¬ (sinkhorn ⟨1 / 1000000, 1, 100⟩ (fun (_ : Fin 1) (_ : Fin 1) => 1)
      (fun _ => 2) (fun _ => 2)).coupling 0 0 =
        (fun _ : Fin 1 => (2 : ℚ)) 0 * (fun _ : Fin 1 => (2 : ℚ)) 0 := by
  with_unfolding_all decide

/-- C8 (amended): for every 1×1 instance with positive kernel entry, positive
equal-mass marginals, positive threshold and `inner_iterations = 1`, the
Sinkhorn solver converges in exactly 1 iteration and the returned coupling
equals the common mass `b 0`; in particular it equals `a 0 * b 0` when the
marginals are normalized (`a 0 = 1`). -/
theorem sinkhorn_one_by_one (cfg : SinkhornCfg) (K : Fin 1 → Fin 1 → ℚ)
    (a b : Fin 1 → ℚ) (hK : 0 < K 0 0) (ha : 0 < a 0) (hab : a 0 = b 0)
    (hthr : 0 < cfg.threshold) (hin : cfg.inner_iterations = 1)
    (hmax : 0 < cfg.max_iterations) :
    (sinkhorn cfg K a b).iters = 1 ∧
    (sinkhorn cfg K a b).converged = true ∧
    (sinkhorn cfg K a b).coupling 0 0 = b 0 ∧
    (a 0 = 1 → (sinkhorn cfg K a b).coupling 0 0 = a 0 * b 0) := by
  obtain ⟨f, hf⟩ := Nat.exists_eq_succ_of_ne_zero (Nat.pos_iff_ne_zero.mp hmax)
  have hKne : K 0 0 ≠ 0 := ne_of_gt hK
  have hane : a 0 ≠ 0 := ne_of_gt ha
  have hplan : plan K (spass K a b ((fun _ => 1, fun _ => 1) : ScalState 1 1)) 0 0 = b 0 := by
    simp only [plan, spass, uUpd, vUpd, Fin.sum_univ_one]
    field_simp
  have hviol : viol K a (spass K a b ((fun _ => 1, fun _ => 1) : ScalState 1 1)) = 0 := by
    simp only [viol, rowSum, Fin.sum_univ_one]
    rw [hplan, ← hab, sub_self, abs_zero]
  have hrun : sinkhornRun cfg K a b =
      (spass K a b ((fun _ => 1, fun _ => 1) : ScalState 1 1), 1) := by
    unfold sinkhornRun
    rw [hf]
    simp only [sgo, hin, Function.iterate_one, Nat.zero_add]
    rw [if_pos (Or.inl (by rw [hviol]; exact hthr))]
  have hiters : (sinkhorn cfg K a b).iters = (sinkhornRun cfg K a b).2 := rfl
  have hconv : (sinkhorn cfg K a b).converged =
      decide (viol K a (sinkhornRun cfg K a b).1 < cfg.threshold) := rfl
  have hcoup : (sinkhorn cfg K a b).coupling = plan K (sinkhornRun cfg K a b).1 := rfl
  refine ⟨?_, ?_, ?_, ?_⟩
  · rw [hiters, hrun]
  · rw [hconv, hrun]
    simp only [decide_eq_true_eq]
    rw [hviol]
    exact hthr
  · rw [hcoup, hrun]
    exact hplan
  · intro h1
    rw [hcoup, hrun, hplan, h1, one_mul]

/-- Closed witness for `sinkhorn_one_by_one` at a concrete instance. -/
theorem sinkhorn_one_by_one_witness :
    (sinkhorn ⟨1 / 2, 1, 5⟩ (fun (_ : Fin 1) (_ : Fin 1) => 1)
      (fun _ => 1) (fun _ => 1)).iters = 1 ∧
    (sinkhorn ⟨1 / 2, 1, 5⟩ (fun (_ : Fin 1) (_ : Fin 1) => 1)
      (fun _ => 1) (fun _ => 1)).converged = true ∧
    (sinkhorn ⟨1 / 2, 1, 5⟩ (fun (_ : Fin 1) (_ : Fin 1) => 1)
      (fun _ => 1) (fun _ => 1)).coupling 0 0 = (fun _ : Fin 1 => (1 : ℚ)) 0 ∧
    ((fun _ : Fin 1 => (1 : ℚ)) 0 = 1 →
      (sinkhorn ⟨1 / 2, 1, 5⟩ (fun (_ : Fin 1) (_ : Fin 1) => 1)
        (fun _ => 1) (fun _ => 1)).coupling 0 0 =
        (fun _ : Fin 1 => (1 : ℚ)) 0 * (fun _ : Fin 1 => (1 : ℚ)) 0) :=
  sinkhorn_one_by_one ⟨1 / 2, 1, 5⟩ (fun _ _ => 1) (fun _ => 1) (fun _ => 1)
    (by decide) (by decide) (by decide) (by with_unfolding_all decide)
    (by decide) (by decide)

end SinkhornTheory

section PolytopeTheory

theorem sum_map_const_nat {α : Type} (l : List α) (c : ℕ) :
    (l.map (fun _ => c)).sum = l.length * c := by
  induction l with
  | nil => simp
  | cons h t ih => simp [ih, List.length_cons]; ring

theorem length_cubeVertices (d : ℕ) : (cubeVertices d).length = 2 * d := by
  rw [cubeVertices, List.length_flatMap]
  simp only [Function.comp_def, List.length_cons, List.length_nil]
  rw [sum_map_const_nat, List.length_range]
  ring

theorem length_orthoplexVertices (d : ℕ) : (orthoplexVertices d).length = 2 * d := by
  rw [orthoplexVertices, List.length_flatMap]
  simp only [Function.comp_def, List.length_cons, List.length_nil]
  rw [sum_map_const_nat, List.length_range]
  ring

theorem length_simplexVertices (d : ℕ) : (simplexVertices d).length = d + 1 := by
  rw [simplexVertices, List.length_append]
  simp

/-- C7: the Polytope Generator is deterministic (it is a pure function, so
repeated calls with the same arguments return the identical vertex list), and
for every `dim ≥ 1` the supported kinds return exactly the documented vertex
counts: `2*dim` for `cube`, `2*dim` for `orthoplex`, `dim+1` for `simplex`. -/
theorem generate_deterministic_counts (dim : ℕ) (hdim : 1 ≤ dim) :
    (∀ kind : String, generate kind dim = generate kind dim) ∧
    generate "cube" dim = .ok (cubeVertices dim) ∧
    (cubeVertices dim).length = 2 * dim ∧
    generate "orthoplex" dim = .ok (orthoplexVertices dim) ∧
    (orthoplexVertices dim).length = 2 * dim ∧
    generate "simplex" dim = .ok (simplexVertices dim) ∧
    (simplexVertices dim).length = dim + 1 := by
  have hnot : ¬ dim < 1 := by omega
  refine ⟨fun _ => rfl, ?_, length_cubeVertices dim, ?_, length_orthoplexVertices dim,
    ?_, length_simplexVertices dim⟩
  · rw [generate, if_neg hnot, if_pos rfl]
  · rw [generate, if_neg hnot, if_neg (by decide), if_neg (by decide), if_pos rfl]
  · rw [generate, if_neg hnot, if_neg (by decide), if_pos rfl]

/-- Closed witness for `generate_deterministic_counts` at `dim = 3`. -/
theorem generate_deterministic_counts_witness :
    (∀ kind : String, generate kind 3 = generate kind 3) ∧
    generate "cube" 3 = .ok (cubeVertices 3) ∧
    (cubeVertices 3).length = 2 * 3 ∧
    generate "orthoplex" 3 = .ok (orthoplexVertices 3) ∧
    (orthoplexVertices 3).length = 2 * 3 ∧
    generate "simplex" 3 = .ok (simplexVertices 3) ∧
    (simplexVertices 3).length = 3 + 1 :=
  generate_deterministic_counts 3 (by decide)

end PolytopeTheory

section SamplerTheory

theorem foldl_min_le (l : List ℚ) (a : ℚ) : l.foldl min a ≤ a := by
  induction l generalizing a with
  | nil => exact le_refl a
  | cons h t ih => exact le_trans (ih (min a h)) (min_le_left a h)

set_option maxRecDepth 1000000 in
/-- C5 counterexample: with one state `[0]` at cost 0, cube probes at radius
1 (costs 1 each), the spec-mandated uniform target marginal forces the
computed coupling to put mass 1/3 on each candidate, so the expected
candidate cost under the coupling is 2/3 > 0 even though the stay option (at
its own cost 0) is among the candidates: the expected cost is NOT
non-increasing relative to the stay-only baseline. -/
theorem sampler_expected_cost_counterexample :
    [(0 : ℚ)] ∈ probeCands (cubeVertices 1) (probeRadii 1 1 1) [(0 : ℚ)] ∧
    costValD (fun x => some (x.getD 0 0 * x.getD 0 0)) [(0 : ℚ)] = 0 ∧
    expectedCandCost ⟨10, 1, 100⟩ 1 (fun x => some (x.getD 0 0 * x.getD 0 0))
      (cubeVertices 1) (probeRadii 1 1 1) [[(0 : ℚ)]] 0 >
      costValD (fun x => some (x.getD 0 0 * x.getD 0 0)) [(0 : ℚ)] := by
  with_unfolding_all decide

/-- C5 (amended): the "stay" option (the current state, carrying its own
cost) is always the first candidate of every probe set, so the minimum
available candidate cost never exceeds the stay cost (a no-op floor on the
options); the expected cost of the updated state under the uniform-marginal
coupling, however, is not guaranteed to be non-increasing (see the
counterexample). -/
theorem sampler_stay_floor (V : List (List ℚ)) (radii : List ℚ) (x : List ℚ)
    (cv : List ℚ → Option ℚ) :
    x ∈ probeCands V radii x ∧
    minOfCosts cv (probeCands V radii x) ≤ costValD cv x := by
  constructor
  · exact List.mem_cons_self x _
  · rw [probeCands, minOfCosts]
    simp only [List.map_cons]
    exact foldl_min_le _ _

end SamplerTheory

section PlannerTheory

theorem optLoop_iters (step : Pop → Except MPOTError Pop) (costF : Pop → Option ℚ)
    (linF : Pop → ℕ) (minI : ℕ) (thr : ℚ) (storeH : Bool) :
    ∀ (fuel done : ℕ) (pop : Pop) (prev : ℚ) (st : OptimState) (p0 : Pop)
      (s0 : OptimState) (iters : ℕ),
      optLoop step costF linF minI thr storeH fuel done pop prev st = .ok (p0, s0, iters) →
      iters ≤ done + fuel ∧ (minI ≤ done + fuel → minI ≤ iters) ∧ done ≤ iters := by
  intro fuel
  induction fuel with
  | zero =>
    intro done pop prev st p0 s0 iters h
    simp only [optLoop, Except.ok.injEq, Prod.mk.injEq] at h
    obtain ⟨-, -, h3⟩ := h
    omega
  | succ fuel ih =>
    intro done pop prev st p0 s0 iters h
    simp only [optLoop] at h
    split at h
    · simp at h
    · split at h
      · simp at h
      · split at h
        · rename_i hcond
          simp only [Except.ok.injEq, Prod.mk.injEq] at h
          obtain ⟨-, -, h3⟩ := h
          have := hcond.1
          omega
        · have hrec := ih (done + 1) _ _ _ p0 s0 iters h
          obtain ⟨h1, h2, h3⟩ := hrec
          refine ⟨by omega, fun hmin => h2 (by omega), by omega⟩

/-- C3: for every run of the planner, a successful `optimize()` returns an
iteration count at most `max_iterations` (the outer fuel), and at least
`min_iterations` whenever `min_iterations ≤ max_iterations`, since early
stopping is only taken at an iteration `≥ min_iterations` whose relative cost
change is below `threshold`, and otherwise the loop runs to
`max_iterations`. -/
theorem optimize_iteration_bounds (pl : MPOT) (otCfg : SinkhornCfg)
    (cv : List ℚ → Option ℚ) (amb : ℕ)
    (hok : isOkE (MPOT.optimize pl otCfg cv amb) = true) :
    itersOf (MPOT.optimize pl otCfg cv amb) ≤ pl.params.max_iterations ∧
    (pl.params.min_iterations ≤ pl.params.max_iterations →
      pl.params.min_iterations ≤ itersOf (MPOT.optimize pl otCfg cv amb)) := by
  rcases hr : MPOT.optimize pl otCfg cv amb with e | x
  · rw [hr] at hok; simp [isOkE] at hok
  · obtain ⟨p0, s0, iters⟩ := x
    have hr' := hr
    simp only [MPOT.optimize] at hr'
    split at hr'
    · simp at hr'
    · have h := optLoop_iters _ _ _ _ _ _ pl.params.max_iterations 0 _ _ _ p0 s0 iters hr'
      simp only [itersOf]
      omega

set_option maxRecDepth 1000000 in
/-- Closed witness for `optimize_iteration_bounds` at a concrete planner run
(one simplex particle, one waypoint, two outer iterations). -/
theorem optimize_iteration_bounds_witness :
    itersOf (MPOT.optimize
        ⟨⟨"simplex", 1, 1, 1, 2, 1, 1, 1, [0, 0, 0, 0], [[0, 0, 0, 0]], 1, 1, 0, 2, -1,
          true, 0, 0, 0, 0⟩, simplexVertices 2⟩ ⟨10, 1, 5⟩
        (fun x => some (x.getD 0 0 * x.getD 0 0 + x.getD 1 0 * x.getD 1 0)) 0) ≤ 2 ∧
    ((0 : ℕ) ≤ 2 →
      (0 : ℕ) ≤ itersOf (MPOT.optimize
        ⟨⟨"simplex", 1, 1, 1, 2, 1, 1, 1, [0, 0, 0, 0], [[0, 0, 0, 0]], 1, 1, 0, 2, -1,
          true, 0, 0, 0, 0⟩, simplexVertices 2⟩ ⟨10, 1, 5⟩
        (fun x => some (x.getD 0 0 * x.getD 0 0 + x.getD 1 0 * x.getD 1 0)) 0)) :=
  optimize_iteration_bounds
    ⟨⟨"simplex", 1, 1, 1, 2, 1, 1, 1, [0, 0, 0, 0], [[0, 0, 0, 0]], 1, 1, 0, 2, -1,
      true, 0, 0, 0, 0⟩, simplexVertices 2⟩ ⟨10, 1, 5⟩
    (fun x => some (x.getD 0 0 * x.getD 0 0 + x.getD 1 0 * x.getD 1 0)) 0
    (by with_unfolding_all decide)

/-- C4: reproducibility.  Seeding overwrites the ambient random state, so two
independent `optimize()` runs of the same planner (same seed, identical
configuration) started from arbitrary, possibly different ambient states
produce identical initial particle populations, identical full results, and
in particular the same `iterations_run`. -/
theorem optimize_reproducible (amb1 amb2 : ℕ) (pl : MPOT) (otCfg : SinkhornCfg)
    (cv : List ℚ → Option ℚ) :
    initPopulation (fix_random_seed amb1 pl.params.seed) pl.params =
      initPopulation (fix_random_seed amb2 pl.params.seed) pl.params ∧
    MPOT.optimize pl otCfg cv amb1 = MPOT.optimize pl otCfg cv amb2 ∧
    itersOf (MPOT.optimize pl otCfg cv amb1) = itersOf (MPOT.optimize pl otCfg cv amb2) :=
  ⟨rfl, rfl, rfl⟩

theorem samplerStep_not_config (otCfg : SinkhornCfg) (eps : ℚ) (V : List (List ℚ))
    (radii : List ℚ) (cv : List ℚ → Option ℚ) (pop : Pop) :
    isConfigError (samplerStep otCfg eps V radii cv pop) = false := by
  rw [samplerStep]
  split
  · rfl
  · rfl

theorem optLoop_no_config (step : Pop → Except MPOTError Pop) (costF : Pop → Option ℚ)
    (linF : Pop → ℕ) (minI : ℕ) (thr : ℚ) (storeH : Bool)
    (hstep : ∀ q, isConfigError (step q) = false) :
    ∀ (fuel done : ℕ) (pop : Pop) (prev : ℚ) (st : OptimState),
      isConfigError (optLoop step costF linF minI thr storeH fuel done pop prev st) = false := by
  intro fuel
  induction fuel with
  | zero => intro done pop prev st; rfl
  | succ fuel ih =>
    intro done pop prev st
    simp only [optLoop]
    split
    · rename_i e he
      have h := hstep pop
      rw [he] at h
      cases e with
      | configurationError msg => simp [isConfigError] at h
      | numericalError msg => rfl
    · split
      · rfl
      · split
        · rfl
        · exact ih _ _ _ _

/-- C9: every configuration error is raised at planner construction, never
during iteration.  Construction fails with a configuration error exactly when
validation fails (invalid polytope kind, `probe_radius < step_radius`,
non-positive `dim`/`traj_len`/`num_particles_per_goal`, mismatched state
shapes); a successfully constructed planner has valid parameters; and
`optimize()` never returns a configuration error (its only failures are
numerical). -/
theorem configuration_errors_only_at_construction :
    (∀ p : MPOTParams, validParams p = false → isConfigError (mkMPOT p) = true) ∧
    (∀ (p : MPOTParams) (pl : MPOT), mkMPOT p = .ok pl → validParams p = true) ∧
    ∀ (pl : MPOT) (otCfg : SinkhornCfg) (cv : List ℚ → Option ℚ) (amb : ℕ),
      isConfigError (MPOT.optimize pl otCfg cv amb) = false := by
  refine ⟨?_, ?_, ?_⟩
  · intro p hp
    rw [mkMPOT, if_neg (by simp [hp])]
    rfl
  · intro p pl h
    rw [mkMPOT] at h
    by_cases hv : validParams p = true
    · exact hv
    · rw [if_neg hv] at h
      simp at h
  · intro pl otCfg cv amb
    simp only [MPOT.optimize]
    split
    · rfl
    · exact optLoop_no_config _ _ _ _ _ _
        (fun q => samplerStep_not_config _ _ _ _ _ _) _ _ _ _ _

/-- Closed witness for `configuration_errors_only_at_construction`: an
invalid configuration (`dim = 0`, unsupported kind) fails construction with a
configuration error, and a concrete `optimize()` run never reports one. -/
theorem configuration_errors_witness :
    isConfigError (mkMPOT ⟨"ball", 1, 1, 1, 0, 1, 1, 1, [], [], 1, 1, 0, 2, -1,
      true, 0, 0, 0, 0⟩) = true ∧
    isConfigError (MPOT.optimize
      ⟨⟨"simplex", 1, 1, 1, 2, 1, 1, 1, [0, 0, 0, 0], [[0, 0, 0, 0]], 1, 1, 0, 2, -1,
        true, 0, 0, 0, 0⟩, simplexVertices 2⟩ ⟨10, 1, 5⟩ (fun _ => some 0) 0) = false :=
  ⟨configuration_errors_only_at_construction.1 _ (by with_unfolding_all decide),
    configuration_errors_only_at_construction.2.2 _ _ _ _⟩

set_option maxRecDepth 1000000 in
/-- C6 counterexample: a two-iteration run of the planner on a fixed
obstacle-free quadratic cost landscape, using the spec's cube polytope in
dimension 1 (`cubeVertices 1 = [[1], [-1]]`: unit vectors, equal norms,
closed under negation, summing to zero).  Two particles (one per goal, two
waypoints each) start with final waypoints at positions 0 (the cost minimum)
and 5.  The uniform target marginal forces each candidate column to receive
total mass `B/n` across the batch, so the couplings of the two particles
compete: the high-cost particle's mass avoids its expensive probes, which
pushes coupling mass of the low-cost particle onto its non-stay probes and
drags it off the cost minimum.  The recorded minimum trajectory cost
strictly increases between the two recorded iterations (approximately
0.0159 to 0.0464), both beyond `min_iterations = 0`. -/
theorem planner_min_cost_counterexample :
    cubeVertices 1 = [[1], [-1]] ∧
    (mkMPOT ⟨"cube", 1, 1, 1, 1, 2, 1, 1, [0, 0], [[0, 0], [5, 0]], 1, 1, 0, 2, -1,
        true, 0, 0, 0, 0⟩).toOption =
      some ⟨⟨"cube", 1, 1, 1, 1, 2, 1, 1, [0, 0], [[0, 0], [5, 0]], 1, 1, 0, 2, -1,
        true, 0, 0, 0, 0⟩, cubeVertices 1⟩ ∧
    itersOf (MPOT.optimize
        ⟨⟨"cube", 1, 1, 1, 1, 2, 1, 1, [0, 0], [[0, 0], [5, 0]], 1, 1, 0, 2, -1,
          true, 0, 0, 0, 0⟩, cubeVertices 1⟩ ⟨10, 1, 5⟩
        (fun x => some (x.getD 0 0 * x.getD 0 0)) 0) = 2 ∧
    (minHistory (fun x => some (x.getD 0 0 * x.getD 0 0))
        (MPOT.optimize
          ⟨⟨"cube", 1, 1, 1, 1, 2, 1, 1, [0, 0], [[0, 0], [5, 0]], 1, 1, 0, 2, -1,
            true, 0, 0, 0, 0⟩, cubeVertices 1⟩ ⟨10, 1, 5⟩
          (fun x => some (x.getD 0 0 * x.getD 0 0)) 0)).length = 2 ∧
    (minHistory (fun x => some (x.getD 0 0 * x.getD 0 0))
        (MPOT.optimize
          ⟨⟨"cube", 1, 1, 1, 1, 2, 1, 1, [0, 0], [[0, 0], [5, 0]], 1, 1, 0, 2, -1,
            true, 0, 0, 0, 0⟩, cubeVertices 1⟩ ⟨10, 1, 5⟩
          (fun x => some (x.getD 0 0 * x.getD 0 0)) 0)).getD 0 0 <
      (minHistory (fun x => some (x.getD 0 0 * x.getD 0 0))
        (MPOT.optimize
          ⟨⟨"cube", 1, 1, 1, 1, 2, 1, 1, [0, 0], [[0, 0], [5, 0]], 1, 1, 0, 2, -1,
            true, 0, 0, 0, 0⟩, cubeVertices 1⟩ ⟨10, 1, 5⟩
          (fun x => some (x.getD 0 0 * x.getD 0 0)) 0)).getD 1 0 := by
  with_unfolding_all decide

theorem chain'_snoc_of_le (cv : List ℚ → Option ℚ) (l : List Pop) (x y : Pop)
    (h : List.Chain' (fun s1 s2 => minPopCost cv s2 ≤ minPopCost cv s1) (l ++ [x]))
    (hxy : minPopCost cv y ≤ minPopCost cv x) :
    List.Chain' (fun s1 s2 => minPopCost cv s2 ≤ minPopCost cv s1) (l ++ [x] ++ [y]) := by
  rw [List.chain'_append]
  refine ⟨h, List.chain'_singleton y, ?_⟩
  intro z hz w hw
  simp only [List.head?_cons, Option.mem_def, Option.some.injEq] at hw
  subst hw
  rw [List.getLast?_concat] at hz
  simp only [Option.mem_def, Option.some.injEq] at hz
  subst hz
  exact hxy

theorem chain'_replace_last (cv : List ℚ → Option ℚ) (l : List Pop) (x y : Pop)
    (h : List.Chain' (fun s1 s2 => minPopCost cv s2 ≤ minPopCost cv s1) (l ++ [x]))
    (hxy : minPopCost cv y ≤ minPopCost cv x) :
    List.Chain' (fun s1 s2 => minPopCost cv s2 ≤ minPopCost cv s1) (l ++ [y]) := by
  rw [List.chain'_append] at h ⊢
  obtain ⟨h1, -, h3⟩ := h
  refine ⟨h1, List.chain'_singleton y, ?_⟩
  intro z hz w hw
  simp only [List.head?_cons, Option.mem_def, Option.some.injEq] at hw
  subst hw
  exact le_trans hxy (h3 z hz x (by simp))

theorem optLoop_minCost_chain (cv : List ℚ → Option ℚ)
    (step : Pop → Except MPOTError Pop) (costF : Pop → Option ℚ) (linF : Pop → ℕ)
    (minI : ℕ) (thr : ℚ) (storeH : Bool)
    (hstep : ∀ q q', step q = .ok q' → minPopCost cv q' ≤ minPopCost cv q) :
    ∀ (fuel done : ℕ) (pop : Pop) (prev : ℚ) (st : OptimState),
      List.Chain' (fun s1 s2 => minPopCost cv s2 ≤ minPopCost cv s1)
        (st.X_history ++ [pop]) →
      List.Chain' (fun s1 s2 => minPopCost cv s2 ≤ minPopCost cv s1)
        ((stateOf (optLoop step costF linF minI thr storeH fuel done pop prev st)).X_history ++
          [(optLoop step costF linF minI thr storeH fuel done pop prev st).toOption.elim
            ([] : Pop) (fun x => x.1)]) := by
  intro fuel
  induction fuel with
  | zero =>
    intro done pop prev st h
    simpa [optLoop, stateOf, Except.toOption, Option.elim] using h
  | succ fuel ih =>
    intro done pop prev st h
    simp only [optLoop]
    split
    · rename_i e he
      simpa [stateOf, Except.toOption, Option.elim] using List.chain'_singleton pop
    · rename_i pop' hs
      have hle : minPopCost cv pop' ≤ minPopCost cv pop := hstep pop pop' hs
      split
      · simpa [stateOf, Except.toOption, Option.elim] using List.chain'_singleton pop
      · rename_i c hc
        have hchain : List.Chain' (fun s1 s2 => minPopCost cv s2 ≤ minPopCost cv s1)
            ((if storeH then st.X_history ++ [pop'] else st.X_history) ++ [pop']) := by
          by_cases hsh : storeH
          · rw [if_pos hsh]
            exact chain'_snoc_of_le cv st.X_history pop' pop'
              (chain'_replace_last cv st.X_history pop pop' h hle) (le_refl _)
          · rw [if_neg hsh]
            exact chain'_replace_last cv st.X_history pop pop' h hle
        split
        · simpa [stateOf, Except.toOption, Option.elim] using hchain
        · exact ih (done + 1) pop' c
            ⟨st.costs ++ [c], st.linear_convergence ++ [linF pop'],
              if storeH then st.X_history ++ [pop'] else st.X_history⟩ hchain

/-- C6 (amended): across the planner's outer iterations the minimum
trajectory cost over the recorded history snapshots is non-increasing
provided each accepted sampler update does not increase the population's
minimum cost.  (Without that premise the property fails: the spec's
uniform-marginal coupling update can strictly increase the minimum cost on a
fixed obstacle-free landscape, as the counterexample shows, so monotonicity
is not unconditional.) -/
theorem min_cost_monotone_of_nonincreasing_step (cv : List ℚ → Option ℚ)
    (step : Pop → Except MPOTError Pop) (costF : Pop → Option ℚ) (linF : Pop → ℕ)
    (minI : ℕ) (thr : ℚ) (storeH : Bool) (fuel : ℕ) (pop : Pop) (prev : ℚ)
    (hstep : ∀ q q', step q = .ok q' → minPopCost cv q' ≤ minPopCost cv q) :
    List.Chain' (fun s1 s2 => minPopCost cv s2 ≤ minPopCost cv s1)
      (stateOf (optLoop step costF linF minI thr storeH fuel 0 pop prev ⟨[], [], []⟩)).X_history := by
  have h := optLoop_minCost_chain cv step costF linF minI thr storeH hstep fuel 0 pop prev
    ⟨[], [], []⟩ (by simpa using List.chain'_singleton pop)
  rw [List.chain'_append] at h
  exact h.1

/-- Closed witness for `min_cost_monotone_of_nonincreasing_step` with the
identity step. -/
theorem min_cost_monotone_witness :
    List.Chain' (fun s1 s2 =>
        minPopCost (fun _ => some 0) s2 ≤ minPopCost (fun _ => some 0) s1)
      (stateOf (optLoop Except.ok (fun _ => some 0) (fun _ => 0) 0 (-1) true 2 0
        [[[0]]] 0 ⟨[], [], []⟩)).X_history :=
  min_cost_monotone_of_nonincreasing_step (fun _ => some 0) Except.ok (fun _ => some 0)
    (fun _ => 0) 0 (-1) true 2 [[[0]]] 0
    (fun q q' h => le_of_eq (by cases h; rfl))

theorem getD_of_lt {α : Type} (l : List α) (d : α) (i : ℕ) (h : i < l.length) :
    l.getD i d = l[i] := by
  rw [List.getD_eq_getElem?_getD, List.getElem?_eq_getElem h]
  rfl

theorem getD_of_le {α : Type} (l : List α) (d : α) (i : ℕ) (h : l.length ≤ i) :
    l.getD i d = d := by
  rw [List.getD_eq_getElem?_getD, List.getElem?_eq_none h]
  rfl

theorem length_newCol (otCfg : SinkhornCfg) (eps : ℚ) (cv : List ℚ → Option ℚ)
    (V : List (List ℚ)) (radii : List ℚ) (col : List (List ℚ)) :
    (newCol otCfg eps cv V radii col).length = col.length := by
  simp [newCol]

theorem newCol_getD (otCfg : SinkhornCfg) (eps : ℚ) (cv : List ℚ → Option ℚ)
    (V : List (List ℚ)) (radii : List ℚ) (col : List (List ℚ)) (i : ℕ)
    (h : i < col.length) :
    (newCol otCfg eps cv V radii col).getD i [] = newStateFor otCfg eps cv V radii col i := by
  rw [getD_of_lt _ _ _ (by simpa [newCol] using h)]
  simp [newCol]

theorem length_newStateFor (otCfg : SinkhornCfg) (eps : ℚ) (cv : List ℚ → Option ℚ)
    (V : List (List ℚ)) (radii : List ℚ) (col : List (List ℚ)) (i : ℕ) :
    (newStateFor otCfg eps cv V radii col i).length = (col.getD i []).length := by
  simp [newStateFor]

theorem length_column (pop : Pop) (w : ℕ) : (column pop w).length = pop.length := by
  simp [column]

theorem column_getD (pop : Pop) (w i : ℕ) :
    (column pop w).getD i [] = (pop.getD i []).getD w [] := by
  by_cases h : i < pop.length
  · rw [getD_of_lt _ _ _ (by simpa [column] using h), getD_of_lt _ _ _ h]
    simp [column]
  · rw [getD_of_le _ _ _ (by simpa [column] using Nat.le_of_not_lt h),
      getD_of_le _ _ _ (Nat.le_of_not_lt h)]
    simp

theorem stepPop_shaped (otCfg : SinkhornCfg) (eps : ℚ) (cv : List ℚ → Option ℚ)
    (V : List (List ℚ)) (radii : List ℚ) (np T D : ℕ) (pop : Pop)
    (h : shapedPop np T D pop) :
    shapedPop np T D (stepPop otCfg eps cv V radii pop) := by
  obtain ⟨hlen, hmem⟩ := h
  refine ⟨by simp [stepPop, hlen], ?_⟩
  intro t ht
  simp only [stepPop, List.mem_map, List.mem_range] at ht
  obtain ⟨i, hi, rfl⟩ := ht
  have hpi : pop.getD i [] ∈ pop := by
    rw [getD_of_lt _ _ _ hi]
    exact List.getElem_mem hi
  obtain ⟨hTi, hxs⟩ := hmem _ hpi
  refine ⟨by rw [List.length_map, List.length_range]; exact hTi, ?_⟩
  intro x hx
  simp only [List.mem_map, List.mem_range] at hx
  obtain ⟨w, hw, rfl⟩ := hx
  have hcoli : i < (column pop w).length := by rw [length_column]; exact hi
  rw [newCol_getD _ _ _ _ _ _ _ hcoli, length_newStateFor, column_getD,
    getD_of_lt _ _ _ hw]
  exact hxs _ (List.getElem_mem hw)

theorem samplerStep_ok_shaped (otCfg : SinkhornCfg) (eps : ℚ) (V : List (List ℚ))
    (radii : List ℚ) (cv : List ℚ → Option ℚ) (pop pop' : Pop) (np T D : ℕ)
    (h : samplerStep otCfg eps V radii cv pop = .ok pop')
    (hs : shapedPop np T D pop) : shapedPop np T D pop' := by
  rw [samplerStep] at h
  split at h
  · simp at h
  · simp only [Except.ok.injEq] at h
    subst h
    exact stepPop_shaped _ _ _ _ _ _ _ _ _ hs

theorem initPopulation_shaped (s : ℕ) (p : MPOTParams) :
    shapedPop (p.multi_goal_states.length * p.num_particles_per_goal) p.traj_len
      (2 * p.dim) (initPopulation s p) := by
  refine ⟨?_, ?_⟩
  · rw [initPopulation, List.length_flatMap]
    simp only [Function.comp_def, List.length_map, List.length_range]
    rw [sum_map_const_nat, List.length_range]
  · intro t ht
    simp only [initPopulation, List.mem_flatMap, List.mem_map, List.mem_range] at ht
    obtain ⟨g, hg, k, hk, rfl⟩ := ht
    refine ⟨by simp, ?_⟩
    intro x hx
    simp only [List.mem_map, List.mem_range] at hx
    obtain ⟨tt, htt, rfl⟩ := hx
    simp

theorem optLoop_history_inv (step : Pop → Except MPOTError Pop)
    (costF : Pop → Option ℚ) (linF : Pop → ℕ) (minI : ℕ) (thr : ℚ) (storeH : Bool)
    (Inv : Pop → Prop) (hstep : ∀ q q', step q = .ok q' → Inv q → Inv q') :
    ∀ (fuel done : ℕ) (pop : Pop) (prev : ℚ) (st : OptimState), Inv pop →
      (∀ s ∈ st.X_history, Inv s) → (storeH = true → st.X_history.length = done) →
      ∀ (p0 : Pop) (s0 : OptimState) (iters : ℕ),
        optLoop step costF linF minI thr storeH fuel done pop prev st = .ok (p0, s0, iters) →
        (∀ s ∈ s0.X_history, Inv s) ∧ (storeH = true → s0.X_history.length = iters) := by
  intro fuel
  induction fuel with
  | zero =>
    intro done pop prev st hpop hhist hlen p0 s0 iters h
    simp only [optLoop, Except.ok.injEq, Prod.mk.injEq] at h
    obtain ⟨-, h2, h3⟩ := h
    subst h2
    subst h3
    exact ⟨hhist, hlen⟩
  | succ fuel ih =>
    intro done pop prev st hpop hhist hlen p0 s0 iters h
    simp only [optLoop] at h
    split at h
    · simp at h
    · rename_i pop' hs
      have hpop' : Inv pop' := hstep _ _ hs hpop
      split at h
      · simp at h
      · rename_i c hc
        have hhist' : ∀ s ∈ (if storeH then st.X_history ++ [pop'] else st.X_history),
            Inv s := by
          by_cases hsh : storeH
          · rw [if_pos hsh]
            intro s hsm
            rcases List.mem_append.mp hsm with h1 | h1
            · exact hhist s h1
            · rw [List.mem_singleton] at h1
              subst h1
              exact hpop'
          · rw [if_neg hsh]
            exact hhist
        have hlen' : storeH = true →
            (if storeH then st.X_history ++ [pop'] else st.X_history).length = done + 1 := by
          intro hsh
          rw [if_pos hsh, List.length_append, hlen hsh]
          rfl
        split at h
        · simp only [Except.ok.injEq, Prod.mk.injEq] at h
          obtain ⟨-, h2, h3⟩ := h
          subst h2
          exact ⟨hhist', fun hsh => by rw [← h3]; exact hlen' hsh⟩
        · exact ih (done + 1) pop' c _ hpop' hhist' hlen' p0 s0 iters h

/-- C10: when the planner stores history, after `optimize()` returns, the
optimization state's `X_history` holds at least `iterations_run` snapshots
(in fact exactly that many), and every snapshot jointly covers all particles
of all goals with the full state vectors: it has
`num_goals * num_particles_per_goal` particles, each of `traj_len` waypoints,
each waypoint a state vector of length `2*dim` — i.e., every snapshot is
reshapable to `(num_goals * num_particles_per_goal, traj_len, 2*dim)`. -/
theorem history_snapshot_shape (pl : MPOT) (otCfg : SinkhornCfg)
    (cv : List ℚ → Option ℚ) (amb : ℕ)
    (hstore : pl.params.store_history = true) :
    itersOf (MPOT.optimize pl otCfg cv amb) ≤
      (stateOf (MPOT.optimize pl otCfg cv amb)).X_history.length ∧
    ∀ s ∈ (stateOf (MPOT.optimize pl otCfg cv amb)).X_history,
      shapedPop (pl.params.multi_goal_states.length * pl.params.num_particles_per_goal)
        pl.params.traj_len (2 * pl.params.dim) s := by
  rcases hr : MPOT.optimize pl otCfg cv amb with e | x
  · simp [itersOf, stateOf]
  · obtain ⟨p0, s0, iters⟩ := x
    have hr' := hr
    simp only [MPOT.optimize] at hr'
    split at hr'
    · simp at hr'
    · have h := optLoop_history_inv _ _ _ _ _ _
        (shapedPop (pl.params.multi_goal_states.length * pl.params.num_particles_per_goal)
          pl.params.traj_len (2 * pl.params.dim))
        (fun q q' hq hinv => samplerStep_ok_shaped _ _ _ _ _ _ _ _ _ _ hq hinv)
        pl.params.max_iterations 0 _ _ _ (initPopulation_shaped _ _)
        (by simp) (by simp) p0 s0 iters hr'
      simp only [itersOf, stateOf]
      exact ⟨le_of_eq (h.2 hstore).symm, h.1⟩

set_option maxRecDepth 1000000 in
/-- Closed witness for `history_snapshot_shape` at a concrete stored-history
planner run. -/
theorem history_snapshot_shape_witness :
    itersOf (MPOT.optimize
        ⟨⟨"simplex", 1, 1, 1, 2, 1, 1, 1, [0, 0, 0, 0], [[0, 0, 0, 0]], 1, 1, 0, 2, -1,
          true, 0, 0, 0, 0⟩, simplexVertices 2⟩ ⟨10, 1, 5⟩ (fun _ => some 0) 0) ≤
      (stateOf (MPOT.optimize
        ⟨⟨"simplex", 1, 1, 1, 2, 1, 1, 1, [0, 0, 0, 0], [[0, 0, 0, 0]], 1, 1, 0, 2, -1,
          true, 0, 0, 0, 0⟩, simplexVertices 2⟩ ⟨10, 1, 5⟩
        (fun _ => some 0) 0)).X_history.length ∧
    ∀ s ∈ (stateOf (MPOT.optimize
        ⟨⟨"simplex", 1, 1, 1, 2, 1, 1, 1, [0, 0, 0, 0], [[0, 0, 0, 0]], 1, 1, 0, 2, -1,
          true, 0, 0, 0, 0⟩, simplexVertices 2⟩ ⟨10, 1, 5⟩
        (fun _ => some 0) 0)).X_history,
      shapedPop ([[(0 : ℚ), 0, 0, 0]].length * 1) 1 (2 * 2) s :=
  history_snapshot_shape
    ⟨⟨"simplex", 1, 1, 1, 2, 1, 1, 1, [0, 0, 0, 0], [[0, 0, 0, 0]], 1, 1, 0, 2, -1,
      true, 0, 0, 0, 0⟩, simplexVertices 2⟩ ⟨10, 1, 5⟩ (fun _ => some 0) 0 rfl

end PlannerTheory

end MPot
